import Mathlib

/-!
Verification of `pyradi/ryfiles.py` against its natural-language specification.

The Python module is shallowly embedded below.  Files are modelled by their
already-read contents: a raw binary file is an `Option (List α)` (`none` means
the `open`/read raised `IOError`, which the source catches), a numeric text
file is a `List (List ℚ)` of parsed rows (Python floats are modelled exactly
over `ℚ`; all inputs of interest are small enough that IEEE doubles are exact),
and strings are `List Char`.  Fallible code returns `Except`; a `.error`
models an uncaught Python exception, `.ok` a normal return.

Key point for `readRawFrames`: the module has `from __future__ import
division` (line 40 of the source), so `frames = data.size / (rows * cols)`
is TRUE division producing a float, modelled here exactly as a `ℚ`.
`sizeCheck = frames * rows * cols` therefore always equals `data.size`
(whenever `rows * cols` is nonzero), and numpy's
`data.reshape(frames, rows, cols)` is reached even when `frames` is not a
whole number; numpy then raises (old numpy truncates the float and raises
`ValueError` on the element-count mismatch, recent numpy raises `TypeError`
at once).  Both outcomes are modelled by `Except.error`.
-/

deriving instance DecidableEq for Except

/-- Split a list into chunks of `n` elements (structural fuel variant so that
the kernel can evaluate it); `fuel` must be at least `l.length`. -/
def chunkListGo (n : Nat) : Nat → List α → List (List α)
  | 0, _ => []
  | _, [] => []
  | fuel + 1, x :: xs => (x :: xs).take n :: chunkListGo n fuel ((x :: xs).drop n)

/-- `chunkList n l` splits `l` into consecutive chunks of `n` elements each.
For `n > 0` and `n ∣ l.length` this is numpy's row-major `reshape` into rows
of length `n`. -/
def chunkList (n : Nat) (l : List α) : List (List α) :=
  chunkListGo n l.length l

/-- One iteration of the frame loop in `readRawFrames` (the
`for frame in range(0, lastframe+1, 1)` body): read `framesize` elements from
the remaining file contents and, if this frame index was requested, append
them to the accumulator.  The accumulator is `Option` because the source
initialises `data = None` and tests `data == None` before concatenating. -/
def selStep (framesize : Nat) (loadFrames : List Nat)
    (st : List α × Option (List α)) (frame : Nat) : List α × Option (List α) :=
  let dataframe := st.1.take framesize
  let rest := st.1.drop framesize
  if frame ∈ loadFrames then
    match st.2 with
    | none => (rest, some dataframe)
    | some d => (rest, some (d ++ dataframe))
  else (rest, st.2)

/-- Tail of `readRawFrames` (source lines 361-372): compute
`frames = data.size / (rows*cols)` by Python-3-style TRUE division (the module
imports `division` from `__future__`), check `sizeCheck == data.size`, and
reshape.  numpy's `reshape` truncates a non-integral float count and raises on
the resulting element-count mismatch, modelled by the inner `if`; the final
`int(frames)` truncates the float toward zero. -/
def finishRaw (data : List α) (rows cols : Nat) :
    Except Unit (Nat × Option (List (List (List α)))) :=
  if rows * cols = 0 then .error () else
  let framesQ : ℚ := (data.length : ℚ) / ((rows * cols : Nat) : ℚ)
  let sizeCheck : ℚ := framesQ * (rows : ℚ) * (cols : ℚ)
  if sizeCheck = (data.length : ℚ) then
    if (⌊framesQ⌋).toNat * (rows * cols) = data.length then
      .ok ((⌊framesQ⌋).toNat, some ((chunkList (rows * cols) data).map (chunkList cols)))
    else .error ()
  else .ok ((⌊framesQ⌋).toNat, none)

/-- `readRawFrames(fname, rows, cols, vartype, loadFrames)` from
`pyradi/ryfiles.py`.  `contents` is the flat element sequence of the binary
file, or `none` when opening/reading raises `IOError` (caught by the source,
which then returns `0, None`).  An empty `loadFrames` selects the
read-everything path; otherwise frames `0 .. max(loadFrames)` are read
sequentially and the requested ones are concatenated. -/
def readRawFrames (contents : Option (List α)) (rows cols : Nat)
    (loadFrames : List Nat) : Except Unit (Nat × Option (List (List (List α)))) :=
  if loadFrames.isEmpty then
    match contents with
    | none => .ok (0, none)
    | some data => finishRaw data rows cols
  else
    match contents with
    | none => .ok (0, none)
    | some file =>
      let framesize := rows * cols
      let lastframe := loadFrames.foldl max 0
      let st := (List.range (lastframe + 1)).foldl (selStep framesize loadFrames) (file, none)
      match st.2 with
      | none => .error ()
      | some data => finishRaw data rows cols

/-- The true-division bookkeeping of `finishRaw` collapses to Nat arithmetic:
whenever `rows * cols` is nonzero, `sizeCheck` equals `data.size` exactly, so
everything reduces to whether `rows * cols` divides the element count. -/
theorem finishRaw_eq (data : List α) (rows cols : Nat) (h : rows * cols ≠ 0) :
    finishRaw data rows cols =
      if data.length / (rows * cols) * (rows * cols) = data.length then
        .ok (data.length / (rows * cols),
          some ((chunkList (rows * cols) data).map (chunkList cols)))
      else .error () := by
  have hq : ((rows * cols : Nat) : ℚ) ≠ 0 := by exact_mod_cast h
  have h1 : (data.length : ℚ) / ((rows * cols : Nat) : ℚ) * (rows : ℚ) * (cols : ℚ)
      = (data.length : ℚ) := by
    rw [mul_assoc, show ((rows : ℚ) * (cols : ℚ)) = ((rows * cols : Nat) : ℚ) by push_cast; ring]
    exact div_mul_cancel₀ _ hq
  have h2 : (⌊(data.length : ℚ) / ((rows * cols : Nat) : ℚ)⌋).toNat
      = data.length / (rows * cols) := by
    rw [Int.floor_toNat, Nat.floor_div_nat, Nat.floor_natCast]
  simp only [finishRaw, if_neg h, if_pos h1, h2]

/-- Accumulator summary for the frame loop: starting from accumulator `d`,
appending the retained chunks `chunks` one by one (as `selStep` does) yields
`d` when nothing was retained and `some (d.getD [] ++ chunks.flatten)`
otherwise. -/
def optAcc (d : Option (List α)) (chunks : List (List α)) : Option (List α) :=
  match chunks with
  | [] => d
  | _ :: _ => some (d.getD [] ++ chunks.flatten)

theorem selStep_eq (fs : Nat) (lf : List Nat) (s : List α) (d : Option (List α)) (i : Nat) :
    selStep fs lf (s, d) i =
      (s.drop fs, if i ∈ lf then some (d.getD [] ++ s.take fs) else d) := by
  by_cases hi : i ∈ lf
  · simp only [selStep, if_pos hi]
    cases d <;> simp
  · simp only [selStep, if_neg hi]

theorem optAcc_cons (d : Option (List α)) (c : List α) (cs : List (List α)) :
    optAcc d (c :: cs) = optAcc (some (d.getD [] ++ c)) cs := by
  cases cs with
  | nil => simp [optAcc]
  | cons c' cs' => simp [optAcc, List.append_assoc]

/-- What the frame loop of `readRawFrames` computes: after `len` iterations
starting at frame index `i`, the remaining file contents have advanced by
`len * framesize` elements, and the accumulator has collected, in loop order,
exactly the chunks whose frame index is in `loadFrames`. -/
theorem selFold (fs : Nat) (lf : List Nat) (α : Type) :
    ∀ (len i : Nat) (s : List α) (d : Option (List α)),
    (List.range' i len).foldl (selStep fs lf) (s, d) =
      (s.drop (len * fs),
       optAcc d (((List.range len).filter (fun j => decide ((i + j) ∈ lf))).map
         (fun j => (s.drop (j * fs)).take fs))) := by
  intro len
  induction len with
  | zero => intro i s d; simp [optAcc]
  | succ len ih =>
    intro i s d
    rw [List.range'_succ, List.foldl_cons, selStep_eq, ih (i + 1) (s.drop fs) _,
      List.range_succ_eq_map, List.filter_cons]
    by_cases hi : i ∈ lf
    · rw [if_pos hi, if_pos (by simp [hi])]
      simp only [List.filter_map, List.map_cons, List.map_map, Function.comp_def,
        Nat.add_zero, Nat.zero_mul, List.drop_zero, List.drop_drop, Nat.succ_mul,
        Nat.add_succ, Nat.succ_add, Nat.add_comm, Nat.add_left_comm]
      rw [optAcc_cons]
    · rw [if_neg hi, if_neg (by simp [hi])]
      simp only [List.filter_map, List.map_map, Function.comp_def, Nat.add_zero,
        Nat.zero_mul, List.drop_zero, List.drop_drop, Nat.succ_mul, Nat.add_succ,
        Nat.succ_add, Nat.add_comm, Nat.add_left_comm]

/-- `selFold` specialised to the loop `for frame in range(0, lastframe+1, 1)`
as it appears in `readRawFrames` (start index 0, `List.range` form). -/
theorem selFold_range (fs : Nat) (lf : List Nat) (α : Type) (len : Nat) (s : List α)
    (d : Option (List α)) :
    (List.range len).foldl (selStep fs lf) (s, d) =
      (s.drop (len * fs),
       optAcc d (((List.range len).filter (fun j => decide (j ∈ lf))).map
         (fun j => (s.drop (j * fs)).take fs))) := by
  rw [List.range_eq_range', selFold]
  simp only [Nat.zero_add]
  rw [← List.range_eq_range']

theorem le_foldl_max : ∀ (l : List Nat) (a : Nat), a ≤ l.foldl max a := by
  intro l
  induction l with
  | nil => intro a; exact Nat.le_refl a
  | cons x xs ih => intro a; exact le_trans (Nat.le_max_left a x) (ih (max a x))

theorem mem_le_foldl_max : ∀ (l : List Nat) (a j : Nat), j ∈ l → j ≤ l.foldl max a := by
  intro l
  induction l with
  | nil => intro a j hj; cases hj
  | cons x xs ih =>
    intro a j hj
    rcases List.mem_cons.mp hj with h | h
    · subst h; exact le_trans (Nat.le_max_right a j) (le_foldl_max xs (max a j))
    · exact ih (max a x) j h

theorem foldl_max_mem : ∀ (l : List Nat) (a : Nat), l.foldl max a ∈ l ∨ l.foldl max a = a := by
  intro l
  induction l with
  | nil => intro a; right; rfl
  | cons x xs ih =>
    intro a
    rcases ih (max a x) with h | h
    · left; exact List.mem_cons_of_mem _ h
    · rcases max_choice a x with hax | hax
      · right; rw [List.foldl_cons, h, hax]
      · left; rw [List.foldl_cons, h, hax]; exact List.mem_cons_self _ _

theorem foldl_max_zero_mem (lf : List Nat) (h : lf ≠ []) : lf.foldl max 0 ∈ lf := by
  rcases foldl_max_mem lf 0 with hm | hz
  · exact hm
  · cases lf with
    | nil => exact absurd rfl h
    | cons x xs =>
      have hx : x ≤ (x :: xs).foldl max 0 := mem_le_foldl_max _ _ _ (List.mem_cons_self _ _)
      rw [hz] at hx
      rw [hz, ← Nat.le_zero.mp hx]
      exact List.mem_cons_self _ _

theorem chunkListGo_flatten (n : Nat) (hn : n ≠ 0) :
    ∀ (cs : List (List α)) (fuel : Nat), (∀ c ∈ cs, c.length = n) →
      cs.flatten.length ≤ fuel → chunkListGo n fuel cs.flatten = cs := by
  intro cs
  induction cs with
  | nil => intro fuel _ _; cases fuel <;> rfl
  | cons c cs ih =>
    intro fuel hlen hfuel
    have hc : c.length = n := hlen c (List.mem_cons_self _ _)
    have hfl : (c :: cs).flatten = c ++ cs.flatten := by simp
    obtain ⟨x, xs, hcx⟩ : ∃ x xs, c = x :: xs := by
      cases c with
      | nil => exact absurd hc.symm hn
      | cons x xs => exact ⟨x, xs, rfl⟩
    have hlenfl : n + cs.flatten.length ≤ fuel := by
      have := hfuel
      rw [hfl, List.length_append, hc] at this
      exact this
    obtain ⟨f, rfl⟩ : ∃ f, fuel = f + 1 := by
      cases fuel with
      | zero => omega
      | succ f => exact ⟨f, rfl⟩
    rw [hfl, hcx, List.cons_append, chunkListGo, ← List.cons_append, ← hcx,
      List.take_left' hc, List.drop_left' hc]
    rw [ih f (fun c hc => hlen c (List.mem_cons_of_mem _ hc)) (by omega)]

theorem chunkList_flatten (n : Nat) (hn : n ≠ 0) (cs : List (List α))
    (h : ∀ c ∈ cs, c.length = n) : chunkList n cs.flatten = cs :=
  chunkListGo_flatten n hn cs _ h (Nat.le_refl _)

theorem sum_map_const_nat : ∀ (l : List β) (c : Nat), (l.map (fun _ => c)).sum = l.length * c := by
  intro l c
  induction l with
  | nil => simp
  | cons x xs ih => simp [ih, Nat.succ_mul, Nat.add_comm]

theorem chunk_length_of_le (file : List α) (fs j L : Nat) (hj : j ≤ L)
    (hlen : (L + 1) * fs ≤ file.length) : ((file.drop (j * fs)).take fs).length = fs := by
  have h1 : j * fs + fs ≤ file.length := by
    have h2 : (j + 1) * fs ≤ (L + 1) * fs := Nat.mul_le_mul_right _ (by omega)
    calc j * fs + fs = (j + 1) * fs := by rw [Nat.succ_mul]
    _ ≤ (L + 1) * fs := h2
    _ ≤ file.length := hlen
  rw [List.length_take, List.length_drop]
  exact Nat.min_eq_left (Nat.le_sub_of_add_le (by rw [Nat.add_comm]; exact h1))

theorem optAcc_none (cs : List (List α)) (hcs : cs ≠ []) : optAcc none cs = some cs.flatten := by
  cases cs with
  | nil => exact absurd rfl hcs
  | cons c cs' => simp [optAcc]

theorem finishRaw_exact (data : List α) (rows cols D : Nat) (hrc : rows * cols ≠ 0)
    (hlen : data.length = D * (rows * cols)) :
    finishRaw data rows cols =
      .ok (D, some ((chunkList (rows * cols) data).map (chunkList cols))) := by
  rw [finishRaw_eq _ _ _ hrc, hlen,
    Nat.mul_div_cancel D (Nat.pos_of_ne_zero hrc), if_pos rfl]

/-- C1: if opening or reading the raw-frame file fails (modelled by
`contents = none`, the caught `IOError` case), `readRawFrames` returns frame
count `0` and an absent (`None`) stack on both the all-frames path and the
explicit-index path, and raises no exception. -/
theorem readRawFrames_ioerror (α : Type) (rows cols : Nat) (loadFrames : List Nat) :
    readRawFrames (none : Option (List α)) rows cols loadFrames = .ok (0, none) := by
  unfold readRawFrames
  split <;> rfl

/-- C2 (failing-input evaluation): on the all-frames path, a file holding two
complete `1 x 2` frames plus a trailing partial frame (5 elements in all)
makes `readRawFrames` raise — `frames = 5/2` is a non-integral float, the
true-division `sizeCheck` guard passes vacuously, and `reshape` fails —
instead of returning count 2 with the partial frame dropped. -/
theorem readRawFrames_partial_frame_raises :
    readRawFrames (some ([5, 6, 7, 8, 9] : List Int)) 1 2 [] = .error () := by
  rw [show readRawFrames (some ([5, 6, 7, 8, 9] : List Int)) 1 2 []
        = finishRaw ([5, 6, 7, 8, 9] : List Int) 1 2 from rfl,
    finishRaw_eq _ _ _ (by decide)]
  decide

/-- C3 (failing-input evaluation): on the explicit-index path, requesting
frame `[1]` of a `1 x 2`-frame file that ends after 3 elements retains a
single partial frame (1 element); `readRawFrames` then raises inside
`reshape` (the true-division `sizeCheck` guard passes vacuously) instead of
returning count 0 with an absent stack. -/
theorem readRawFrames_truncated_raises :
    readRawFrames (some ([1, 2, 3] : List Int)) 1 2 [1] = .error () := by
  rw [show readRawFrames (some ([1, 2, 3] : List Int)) 1 2 [1]
        = finishRaw ([3] : List Int) 1 2 from rfl,
    finishRaw_eq _ _ _ (by decide)]
  decide

/-- C4: with a non-empty explicit frame-index list and a file holding at
least `max(loadFrames) + 1` complete frames, `readRawFrames` returns exactly
one frame per distinct requested index, concatenated in file-position order
(the increasing enumeration `(range (max+1)).filter (· ∈ loadFrames)`), with
the frame count equal to the number of distinct requested indices. -/
theorem readRawFrames_selected (α : Type) (file : List α) (rows cols : Nat)
    (loadFrames : List Nat) (hne : loadFrames ≠ []) (hrc : rows * cols ≠ 0)
    (hlen : (loadFrames.foldl max 0 + 1) * (rows * cols) ≤ file.length) :
    readRawFrames (some file) rows cols loadFrames =
      .ok (((List.range (loadFrames.foldl max 0 + 1)).filter
              (fun j => decide (j ∈ loadFrames))).length,
        some (((List.range (loadFrames.foldl max 0 + 1)).filter
              (fun j => decide (j ∈ loadFrames))).map
          (fun j => chunkList cols ((file.drop (j * (rows * cols))).take (rows * cols))))) := by
  have hempty : loadFrames.isEmpty = false := by
    cases loadFrames with
    | nil => exact absurd rfl hne
    | cons x xs => rfl
  have step : readRawFrames (some file) rows cols loadFrames =
      match ((List.range (loadFrames.foldl max 0 + 1)).foldl
        (selStep (rows * cols) loadFrames) (file, none)).2 with
      | none => (.error () : Except Unit (Nat × Option (List (List (List α)))))
      | some data => finishRaw data rows cols := by
    unfold readRawFrames
    rw [hempty]
    rfl
  rw [step, selFold_range]
  have hLsel : loadFrames.foldl max 0 ∈
      (List.range (loadFrames.foldl max 0 + 1)).filter (fun j => decide (j ∈ loadFrames)) := by
    refine List.mem_filter.mpr ⟨List.mem_range.mpr (by omega), ?_⟩
    simpa using foldl_max_zero_mem loadFrames hne
  have hselne : ((List.range (loadFrames.foldl max 0 + 1)).filter
      (fun j => decide (j ∈ loadFrames))).map
        (fun j => (file.drop (j * (rows * cols))).take (rows * cols)) ≠ [] := by
    intro hmap
    rw [List.map_eq_nil_iff] at hmap
    rw [hmap] at hLsel
    cases hLsel
  rw [optAcc_none _ hselne]
  have hchunklen : ∀ c ∈ ((List.range (loadFrames.foldl max 0 + 1)).filter
      (fun j => decide (j ∈ loadFrames))).map
        (fun j => (file.drop (j * (rows * cols))).take (rows * cols)),
      c.length = rows * cols := by
    intro c hc
    rcases List.mem_map.mp hc with ⟨j, hj, rfl⟩
    have hjle : j ≤ loadFrames.foldl max 0 := by
      have := (List.mem_filter.mp hj).1
      have := List.mem_range.mp this
      omega
    exact chunk_length_of_le file (rows * cols) j (loadFrames.foldl max 0) hjle hlen
  have hflat : (((List.range (loadFrames.foldl max 0 + 1)).filter
      (fun j => decide (j ∈ loadFrames))).map
        (fun j => (file.drop (j * (rows * cols))).take (rows * cols))).flatten.length =
      ((List.range (loadFrames.foldl max 0 + 1)).filter
        (fun j => decide (j ∈ loadFrames))).length * (rows * cols) := by
    rw [List.length_flatten, List.map_map]
    rw [List.map_congr_left (fun j _ => by
      exact hchunklen _ (List.mem_map.mpr ⟨j, by assumption, rfl⟩))]
    exact sum_map_const_nat _ _
  show finishRaw _ rows cols = _
  rw [finishRaw_exact _ rows cols _ hrc hflat,
    chunkList_flatten (rows * cols) hrc _ hchunklen, List.map_map]
  simp only [Function.comp_def]

/-- Closed witness for C4: requesting frames `[1, 3]` from a file of four
complete `1 x 2` frames returns exactly the two frames at file positions 1
and 3, in file order. -/
theorem readRawFrames_selected_witness :
    readRawFrames (some ([10, 11, 20, 21, 30, 31, 40, 41] : List Int)) 1 2 [1, 3] =
      .ok (2, some [[[20, 21]], [[40, 41]]]) := by
  have h := readRawFrames_selected Int [10, 11, 20, 21, 30, 31, 40, 41] 1 2 [1, 3]
    (by decide) (by decide) (by decide)
  exact h.trans (by decide)

/-- Error kinds for the text-table loader: `parse` models a
`numpy.loadtxt`/shape failure (missing column, empty data), `bounds` models
scipy `interp1d`'s `ValueError` for a query outside the sample domain
(`bounds_error` defaults to true, so out-of-range queries raise rather than
extrapolate). -/
inductive LoadErr
  | parse
  | bounds
deriving DecidableEq

/-- Piecewise-linear evaluation at `q` over the sample points `pts`
(assumed in range; the bounds check happens in `interp1d` before this is
reached).  Models the interpolation formula of scipy's `interp1d` with
`kind='linear'`: on segment `[x1, x2]` the value is
`y1 + (y2 - y1) / (x2 - x1) * (q - x1)`. -/
def interpPL : List (ℚ × ℚ) → ℚ → ℚ
  | [], _ => 0
  | [(_, y1)], _ => y1
  | (x1, y1) :: (x2, y2) :: rest, q =>
    if q ≤ x2 then y1 + (y2 - y1) / (x2 - x1) * (q - x1)
    else interpPL ((x2, y2) :: rest) q

/-- scipy's `interp1d(x, y)` evaluated at a single query point `q`, as used
by `loadColumnTextFile`: with the default `bounds_error=True`, a query below
`x[0]` or above `x[-1]` raises `ValueError` (`.bounds`); an empty abscissa
cannot be interpolated at all (`.parse`). -/
def interp1d (x y : List ℚ) (q : ℚ) : Except LoadErr ℚ :=
  match x with
  | [] => .error .parse
  | a :: t =>
    if q < a ∨ (a :: t).getLast (List.cons_ne_nil a t) < q then .error .bounds
    else .ok (interpPL ((a :: t).zip y) q)

/-- Evaluate the interpolant of one ordinate column at every point of the
target abscissa, failing on the first out-of-domain query. -/
def interpQs (x y : List ℚ) : List ℚ → Except LoadErr (List ℚ)
  | [] => .ok []
  | q :: qs =>
    match interp1d x y q with
    | .error e => .error e
    | .ok v =>
      match interpQs x y qs with
      | .error e => .error e
      | .ok vs => .ok (v :: vs)

/-- Interpolate each ordinate column in turn (scipy's `interp1d` on a 2-D `y`
interpolates every row of the unpacked array over the same abscissa). -/
def interpCols (x : List ℚ) (qs : List ℚ) : List (List ℚ) → Except LoadErr (List (List ℚ))
  | [] => .ok []
  | y :: ys =>
    match interpQs x y qs with
    | .error e => .error e
    | .ok v =>
      match interpCols x qs ys with
      | .error e => .error e
      | .ok vs => .ok (v :: vs)

/-- Extract column `c` from the parsed numeric rows of a text file, as
`numpy.loadtxt(usecols=[c])` does; a row without column `c` is a parse
failure (`none`). -/
def column (rows : List (List ℚ)) (c : Nat) : Option (List ℚ) :=
  match rows with
  | [] => some []
  | r :: rs =>
    match r.get? c, column rs c with
    | some v, some vs => some (v :: vs)
    | _, _ => none

/-- Extract all requested columns (`numpy.loadtxt(usecols=loadCol,
unpack=True)`): the result is column-major, one inner list per requested
file column. -/
def parseCols (rows : List (List ℚ)) : List Nat → Option (List (List ℚ))
  | [] => some []
  | c :: cs =>
    match column rows c, parseCols rows cs with
    | some v, some vs => some (v :: vs)
    | _, _ => none

/-- `numpy.max` of a one-dimensional array (empty input never occurs on the
reachable paths). -/
def npmax (l : List ℚ) : ℚ :=
  match l with
  | [] => 0
  | x :: xs => xs.foldl max x

/-- Transpose of a rectangular row-major matrix (used both for numpy's
`axis=0` maximum and for the final `.reshape(len(loadCol), -1).T`). -/
def transposeM : List (List α) → List (List α)
  | [] => []
  | [r] => r.map (fun x => [x])
  | r :: rs => List.zipWith (fun x col => x :: col) r (transposeM rs)

/-- The normalization statement `interpValue /= numpy.max(interpValue, axis=0)`
of `loadColumnTextFile`.  `interpValue` is the unpacked (column-major) array:
with a single loaded column it is one-dimensional and `numpy.max(..., axis=0)`
is its global maximum; with several loaded columns it is 2-D with one row per
loaded column, and `axis=0` takes, at each abscissa position, the maximum
ACROSS the loaded columns.  There is no guard for a zero maximum: the division
is performed unconditionally. -/
def normalizeMax (oneD : Bool) (v : List (List ℚ)) : List (List ℚ) :=
  if oneD then v.map (fun c => c.map (fun x => x / npmax c))
  else
    v.map (fun c => List.zipWith (fun x m => x / m) c ((transposeM v).map npmax))

/-- `loadColumnTextFile` from `pyradi/ryfiles.py` over the parsed numeric
rows of the file (text tokenisation, the `comment` prefix and the `delimiter`
are part of `numpy.loadtxt`'s lexing and are abstracted into `fileRows`;
`skiprows` is applied here as `loadtxt` does).  Steps, in source order: parse
column 0 (scaled by `abscissaScale`), parse the `loadCol` columns (scaled by
`ordinateScale`), optionally interpolate onto `abscissaOut`, optionally
normalize by the axis-0 maximum, and return
`interpValue.reshape(len(loadCol), -1).T` — the transpose of the column-major
data. -/
def loadColumnTextFile (fileRows : List (List ℚ)) (loadCol : List Nat) (normalize : Bool)
    (skiprows : Nat) (abscissaScale ordinateScale : ℚ) (abscissaOut : Option (List ℚ)) :
    Except LoadErr (List (List ℚ)) :=
  match column (fileRows.drop skiprows) 0 with
  | none => .error .parse
  | some a0 =>
    match parseCols (fileRows.drop skiprows) loadCol with
    | none => .error .parse
    | some ordCols =>
      let abscissa := a0.map (fun v => abscissaScale * v)
      let ordinate := ordCols.map (List.map (fun v => ordinateScale * v))
      match
        match abscissaOut with
        | none => (.ok ordinate : Except LoadErr (List (List ℚ)))
        | some qs => interpCols abscissa qs ordinate with
      | .error e => .error e
      | .ok interpValue =>
        .ok (transposeM (if normalize then
          normalizeMax (loadCol.length == 1) interpValue else interpValue))

theorem max_div_pos (a b m : ℚ) (hm : 0 < m) : max (a / m) (b / m) = max a b / m := by
  rcases le_total a b with h | h
  · rw [max_eq_right h, max_eq_right ((div_le_div_iff_of_pos_right hm).mpr h)]
  · rw [max_eq_left h, max_eq_left ((div_le_div_iff_of_pos_right hm).mpr h)]

theorem npmax_foldl_div (m : ℚ) (hm : 0 < m) :
    ∀ (xs : List ℚ) (x : ℚ),
      (xs.map (fun v => v / m)).foldl max (x / m) = xs.foldl max x / m := by
  intro xs
  induction xs with
  | nil => intro x; rfl
  | cons y ys ih =>
    intro x
    rw [List.map_cons, List.foldl_cons, List.foldl_cons, max_div_pos _ _ _ hm, ih (max x y)]

/-- Dividing a list elementwise by a positive constant divides its
`numpy.max` by that constant. -/
theorem npmax_map_div (l : List ℚ) (m : ℚ) (hm : 0 < m) :
    npmax (l.map (fun x => x / m)) = npmax l / m := by
  cases l with
  | nil => simp [npmax]
  | cons x xs => simpa only [npmax, List.map_cons] using npmax_foldl_div m hm xs x

/-- C5 (amended): with normalization requested, `loadColumnTextFile` divides
by the axis-0 maximum of the unpacked (column-major) array and has no
zero-maximum guard.  For a single loaded ordinate column the divisor is that
column's own maximum, so when this maximum is positive the returned column has
maximum exactly 1. -/
theorem loadColumnTextFile_normalize_single (fileRows : List (List ℚ)) (k skiprows : Nat)
    (aS oS : ℚ) (a0 ck : List ℚ)
    (h0 : column (fileRows.drop skiprows) 0 = some a0)
    (hk : column (fileRows.drop skiprows) k = some ck)
    (hpos : 0 < npmax (ck.map (fun v => oS * v))) :
    loadColumnTextFile fileRows [k] true skiprows aS oS none =
      .ok (transposeM [(ck.map (fun v => oS * v)).map
        (fun x => x / npmax (ck.map (fun v => oS * v)))]) ∧
    npmax ((ck.map (fun v => oS * v)).map
        (fun x => x / npmax (ck.map (fun v => oS * v)))) = 1 := by
  have hpc : parseCols (fileRows.drop skiprows) [k] = some [ck] := by
    simp only [parseCols, hk]
  constructor
  · simp only [loadColumnTextFile, h0, hpc, List.map_cons, List.map_nil,
      List.length_cons, List.length_nil, Nat.zero_add, beq_self_eq_true, if_true,
      normalizeMax, if_pos]
  · rw [npmax_map_div _ _ hpos, div_self (ne_of_gt hpos)]

/-- C5 (counterexample): loading TWO ordinate columns (columns 1 and 2, whose
parsed values are `[1, 2]` and `[4, 8]`) with normalization requested does NOT
give every column a maximum of 1.0: `numpy.max(..., axis=0)` of the unpacked
array is the per-abscissa-point maximum across the loaded columns
(`[4, 8]` here), so the first returned column is `[1/4, 1/4]`, whose maximum
is `1/4`, not 1.  This refutes "each loaded ordinate column is divided by its
own column-wise maximum so that every column's maximum becomes 1.0". -/
theorem loadColumnTextFile_normalize_cex :
    loadColumnTextFile [[0, 1, 4], [1, 2, 8]] [1, 2] true 0 1 1 none =
      .ok [[1/4, 1], [1/4, 1]] ∧ ¬ npmax [(1 : ℚ)/4, 1/4] = 1 := by
  constructor
  · have h0 : column (([[0, 1, 4], [1, 2, 8]] : List (List ℚ)).drop 0) 0 = some [0, 1] := rfl
    have hpc : parseCols (([[0, 1, 4], [1, 2, 8]] : List (List ℚ)).drop 0) [1, 2] =
        some [[1, 2], [4, 8]] := rfl
    simp only [loadColumnTextFile, h0, hpc, List.map_cons, List.map_nil, one_mul,
      List.length_cons, List.length_nil, normalizeMax]
    norm_num [transposeM, npmax, max_eq_right]
  · norm_num [npmax]

/-- Closed witness for C5 (amended): one loaded column with parsed values
`[2, 4]` (maximum 4 > 0) normalizes to `[1/2, 1]`, whose maximum is 1. -/
theorem loadColumnTextFile_normalize_single_witness :
    loadColumnTextFile [[0, 2], [1, 4]] [1] true 0 1 1 none = .ok [[1/2], [1]] ∧
    npmax [(1 : ℚ)/2, 1] = 1 := by
  have h := loadColumnTextFile_normalize_single [[0, 2], [1, 4]] 1 0 1 1 [0, 1] [2, 4]
    rfl rfl (by norm_num [npmax, max_eq_right])
  refine ⟨h.1.trans ?_, by norm_num [npmax, max_eq_right]⟩
  norm_num [transposeM, npmax, max_eq_right]

theorem interp1d_error_bounds (a : ℚ) (t y : List ℚ) (q : ℚ) (e : LoadErr)
    (h : interp1d (a :: t) y q = .error e) : e = .bounds := by
  simp only [interp1d] at h
  split at h
  · injection h with h2
    exact h2.symm
  · cases h

theorem interp1d_out (a : ℚ) (t y : List ℚ) (q : ℚ)
    (hout : (∀ x ∈ a :: t, q < x) ∨ (∀ x ∈ a :: t, x < q)) :
    interp1d (a :: t) y q = .error .bounds := by
  have hcond : q < a ∨ (a :: t).getLast (List.cons_ne_nil a t) < q := by
    rcases hout with h | h
    · exact Or.inl (h a (List.mem_cons_self a t))
    · exact Or.inr (h _ (List.getLast_mem _))
  simp only [interp1d]
  rw [if_pos hcond]

theorem interpQs_out (a : ℚ) (t y : List ℚ) (q : ℚ) :
    ∀ qs : List ℚ, q ∈ qs →
      interp1d (a :: t) y q = .error .bounds →
      interpQs (a :: t) y qs = .error .bounds := by
  intro qs
  induction qs with
  | nil => intro h _; cases h
  | cons q0 qs ih =>
    intro hmem herr
    simp only [interpQs]
    rcases hq0 : interp1d (a :: t) y q0 with e | v
    · rw [interp1d_error_bounds a t y q0 e hq0]
    · rcases List.mem_cons.mp hmem with rfl | hmem'
      · rw [herr] at hq0
        cases hq0
      · rw [ih hmem' herr]

theorem interpCols_out (x : List ℚ) (qs : List ℚ) (c0 : List ℚ) (rest : List (List ℚ))
    (hc0 : interpQs x c0 qs = .error .bounds) :
    interpCols x qs (c0 :: rest) = .error .bounds := by
  simp only [interpCols]
  rw [hc0]

/-- C6: when a target abscissa vector is supplied and some target value lies
outside the range of the (scaled) parsed abscissa column — below every
abscissa value or above every abscissa value — `loadColumnTextFile` fails
with the out-of-domain error of `interp1d` (`bounds_error`), rather than
extrapolating. -/
theorem loadColumnTextFile_out_of_domain (fileRows : List (List ℚ)) (loadCol : List Nat)
    (normalize : Bool) (skiprows : Nat) (aS oS : ℚ) (qs : List ℚ) (q : ℚ)
    (a0 c0 : List ℚ) (cs : List (List ℚ))
    (h0 : column (fileRows.drop skiprows) 0 = some a0)
    (hc : parseCols (fileRows.drop skiprows) loadCol = some (c0 :: cs))
    (ha : a0 ≠ [])
    (hq : q ∈ qs)
    (hout : (∀ a ∈ a0.map (fun v => aS * v), q < a) ∨
      (∀ a ∈ a0.map (fun v => aS * v), a < q)) :
    loadColumnTextFile fileRows loadCol normalize skiprows aS oS (some qs) =
      .error .bounds := by
  obtain ⟨b, bs, rfl⟩ : ∃ b bs, a0 = b :: bs := by
    cases a0 with
    | nil => exact absurd rfl ha
    | cons b bs => exact ⟨b, bs, rfl⟩
  simp only [loadColumnTextFile, h0, hc, List.map_cons]
  rw [interpCols_out _ _ _ _
    (interpQs_out _ _ _ q qs hq (interp1d_out _ _ _ q (by
      simpa only [List.map_cons] using hout)))]

/-- Closed witness for C6: loading column 1 of a table whose abscissa column
is `[0, 1]` and asking for the interpolant at 5 (above the whole abscissa
range) fails with the out-of-domain error. -/
theorem loadColumnTextFile_out_of_domain_witness :
    loadColumnTextFile [[0, 1], [1, 2]] [1] false 0 1 1 (some [5]) =
      .error .bounds := by
  refine loadColumnTextFile_out_of_domain [[0, 1], [1, 2]] [1] false 0 1 1 [5] 5
    [0, 1] [1, 2] [] rfl rfl (by simp) (by norm_num) ?_
  right
  intro a hmem
  norm_num at hmem
  rcases hmem with rfl | rfl <;> norm_num

/-- `cleanFilename(sourcestring, removestring)` from `pyradi/ryfiles.py`:
Python 2's `filter` over a string keeps, in order, exactly the characters for
which the predicate holds — here the characters not occurring in
`removestring`. -/
def cleanFilename (sourcestring removestring : List Char) : List Char :=
  sourcestring.filter (fun c => !(removestring.contains c))

/-- C7: `cleanFilename` is total (it is a plain `filter`), its output contains
no character of the strip-set, the surviving characters keep their relative
order and identity (the output is a sublist of the input), and the function is
idempotent for a fixed strip-set. -/
theorem cleanFilename_spec (S R : List Char) :
    (∀ c ∈ cleanFilename S R, c ∉ R) ∧
    (cleanFilename S R).Sublist S ∧
    cleanFilename (cleanFilename S R) R = cleanFilename S R := by
  refine ⟨?_, List.filter_sublist S, ?_⟩
  · intro c hc
    have h2 := (List.mem_filter.mp hc).2
    simpa using h2
  · rw [cleanFilename, cleanFilename, List.filter_filter]
    simp

/-- Python's `re.search(pattern, name)` for a metacharacter-free pattern (the
regular-expression engine of the standard library is external to this module;
for a literal pattern, `search` scans every start position and succeeds iff
the pattern occurs as a contiguous substring anywhere in the name). -/
def reSearch (p s : List Char) : Bool :=
  (List.range (s.length + 1)).any (fun i => p.isPrefixOf (s.drop i))

/-- The per-directory matching step of `listFiles` in regex mode (the `visit`
callback with `useRegex=True`): every entry (files always, directories only if
`return_folders`) is kept iff some pattern of the list `search`-matches its
base name, first match wins.  Path joining/normalisation is abstracted away:
entries are (base name, is-file) pairs and results are base names. -/
def visitRegex (return_folders : Bool) (pattern_list : List (List Char))
    (entries : List (List Char × Bool)) : List (List Char) :=
  entries.filterMap (fun e =>
    if return_folders || e.2 then
      if pattern_list.any (fun pat => reSearch pat e.1) then some e.1 else none
    else none)

/-- C8: in regex mode a directory entry matches a pattern whenever the pattern
occurs anywhere inside the base name (substring-search semantics, not a
whole-string match): any name of the form `pre ++ p ++ post` is matched by
pattern `p` and returned by the visit step. -/
theorem listFiles_regex_search (p name pre post : List Char) (isfile : Bool)
    (hsub : pre ++ p ++ post = name) :
    reSearch p name = true ∧ visitRegex true [p] [(name, isfile)] = [name] := by
  have hre : reSearch p name = true := by
    unfold reSearch
    rw [List.any_eq_true]
    refine ⟨pre.length, List.mem_range.mpr ?_, ?_⟩
    · have hlen : pre.length + (p.length + post.length) = name.length := by
        rw [← hsub]; simp
      omega
    · rw [← hsub, List.append_assoc, List.drop_left]
      exact List.isPrefixOf_iff_prefix.mpr (List.prefix_append p post)
  refine ⟨hre, ?_⟩
  simp [visitRegex, hre]

/-- Closed witness for C8: the pattern `py` search-matches the base name
`ryfiles.py` and the entry is returned. -/
theorem listFiles_regex_search_witness :
    reSearch ['p', 'y'] ['r', 'y', 'f', 'i', 'l', 'e', 's', '.', 'p', 'y'] = true ∧
    visitRegex true [['p', 'y']]
        [(['r', 'y', 'f', 'i', 'l', 'e', 's', '.', 'p', 'y'], true)] =
      [['r', 'y', 'f', 'i', 'l', 'e', 's', '.', 'p', 'y']] :=
  listFiles_regex_search ['p', 'y'] ['r', 'y', 'f', 'i', 'l', 'e', 's', '.', 'p', 'y']
    ['r', 'y', 'f', 'i', 'l', 'e', 's', '.'] [] true rfl

/-- Python's `str.split()` with no separator (used on the first line of the
lookup table): split on runs of whitespace, discarding empty tokens. -/
def splitWs (s : List Char) : List (List Char) :=
  (s.splitOnP (fun c => c.isWhitespace)).filter (fun tok => !tok.isEmpty)

/-- `read2DLookupTable(filename)` from `pyradi/ryfiles.py`.  `line1` is the
first line of the file; `aArray` is the numeric grid parsed from the
remaining lines by `numpy.loadtxt(skiprows=1)` (rectangular, or `loadtxt`
itself would have raised — text lexing is abstracted into the rows).  The
first line must hold exactly three whitespace-separated tokens (the unpacking
`xlabel, ylabel, title = lines[0].split()` raises otherwise); `loadtxt`
returns a 1-D (or 0-d) array when the grid has a single row or a single
column, in which case the 2-D indexing `aArray[1:, 0]` raises `IndexError`.
Otherwise `xVec = aArray[1:, 0]`, `yVec = aArray[0, 1:]`,
`data = aArray[1:, 1:]`. -/
def read2DLookupTable (line1 : List Char) (aArray : List (List ℚ)) :
    Except Unit (List ℚ × List ℚ × List (List ℚ) × List Char × List Char × List Char) :=
  match splitWs line1 with
  | [xlabel, ylabel, title] =>
    match aArray with
    | [] => .error ()
    | row0 :: rest =>
      if rest = [] ∨ row0.length ≤ 1 then .error ()
      else .ok (rest.map (fun r => r.headD 0), row0.drop 1, rest.map (fun r => r.drop 1),
        xlabel, ylabel, title)
  | _ => .error ()

/-- C9: for a well-formed lookup-table file — three whitespace-separated
tokens on line 1 and an (M+1)-by-(N+1) rectangular numeric grid below it
(M, N at least 1, per the documented layout) — `read2DLookupTable` returns
the x-abscissa (column 0 of rows 1..M, length M), the y-abscissa (row 0,
columns 1..N, length N), the M-by-N data grid, and the three tokens verbatim
as labels. -/
theorem read2DLookupTable_shape (line1 xl yl tl : List Char)
    (row0 : List ℚ) (rest : List (List ℚ)) (M N : Nat)
    (hsplit : splitWs line1 = [xl, yl, tl])
    (hM : rest.length = M) (hM1 : 1 ≤ M)
    (hrow0 : row0.length = N + 1) (hN1 : 1 ≤ N)
    (hrect : ∀ r ∈ rest, r.length = N + 1) :
    read2DLookupTable line1 (row0 :: rest) =
      .ok (rest.map (fun r => r.headD 0), row0.drop 1, rest.map (fun r => r.drop 1),
        xl, yl, tl) ∧
    (rest.map (fun r => r.headD 0)).length = M ∧
    (row0.drop 1).length = N ∧
    (rest.map (fun r => r.drop 1)).length = M ∧
    ∀ d ∈ rest.map (fun r => r.drop 1), d.length = N := by
  refine ⟨?_, by simpa using hM, by simp [hrow0], by simpa using hM, ?_⟩
  · simp only [read2DLookupTable, hsplit]
    rw [if_neg]
    push_neg
    constructor
    · intro hnil
      rw [hnil] at hM
      simp at hM
      omega
    · rw [hrow0]
      omega
  · intro d hd
    rcases List.mem_map.mp hd with ⟨r, hr, rfl⟩
    have := hrect r hr
    simp [this]

/-- Closed witness for C9: a 5x5 grid (header row and column included) under
the label line `X Y T` yields an x-vector of length 4, a y-vector of length
4, a 4x4 data grid, and the three tokens verbatim. -/
theorem read2DLookupTable_shape_witness :
    read2DLookupTable ['X', ' ', 'Y', ' ', 'T']
        [[0, 1, 2, 3, 4], [10, 11, 12, 13, 14], [20, 21, 22, 23, 24],
         [30, 31, 32, 33, 34], [40, 41, 42, 43, 44]] =
      .ok ([10, 20, 30, 40], [1, 2, 3, 4],
        [[11, 12, 13, 14], [21, 22, 23, 24], [31, 32, 33, 34], [41, 42, 43, 44]],
        ['X'], ['Y'], ['T']) := by
  have h := read2DLookupTable_shape ['X', ' ', 'Y', ' ', 'T'] ['X'] ['Y'] ['T']
    [0, 1, 2, 3, 4]
    [[10, 11, 12, 13, 14], [20, 21, 22, 23, 24], [30, 31, 32, 33, 34], [40, 41, 42, 43, 44]]
    4 4 rfl rfl (by omega) rfl (by omega) (by decide)
  exact h.1.trans rfl

/-- `saveHeaderArrayTextFile(filename, dataArray, header, comment, delimiter)`
from `pyradi/ryfiles.py`, observed as the text written to the file.
`savetxtOut` stands for the text `numpy.savetxt` produces for the data array
(its numeric formatting is external to this module).  When a header is given,
each of its newline-separated lines is written as `comment + line + '\n'`;
with the default `comment=None` this concatenation is `None + str`, a Python
`TypeError`, raised while prefixing the first header line. -/
def saveHeaderArrayTextFile (header comment : Option (List Char))
    (savetxtOut : List Char) : Except Unit (List Char) :=
  match header with
  | none => .ok savetxtOut
  | some h =>
    match comment with
    | none => .error ()
    | some c =>
      .ok (((h.splitOn '\n').map (fun line => c ++ line ++ ['\n'])).flatten ++ savetxtOut)

/-- C10: supplying a header while leaving the comment prefix at its default
`None` makes `saveHeaderArrayTextFile` raise a `TypeError` (modelled as
`.error ()`), for every header and every data array; with any comment string
supplied the call succeeds. -/
theorem saveHeaderArrayTextFile_comment_required (h body : List Char) :
    saveHeaderArrayTextFile (some h) none body = .error () ∧
    ∀ c : List Char, ∃ out : List Char,
      saveHeaderArrayTextFile (some h) (some c) body = .ok out :=
  ⟨rfl, fun c => ⟨_, rfl⟩⟩

/-- Concrete instantiation of C1 at a missing file with indices requested. -/
theorem readRawFrames_ioerror_witness :
    readRawFrames (none : Option (List Int)) 3 4 [0, 2] = .ok (0, none) :=
  readRawFrames_ioerror Int 3 4 [0, 2]

/-- Concrete instantiation of C7 on the string `a b%` with strip-set ` %`. -/
theorem cleanFilename_spec_witness :
    (∀ c ∈ cleanFilename ['a', ' ', 'b', '%'] [' ', '%'], c ∉ [' ', '%']) ∧
    (cleanFilename ['a', ' ', 'b', '%'] [' ', '%']).Sublist ['a', ' ', 'b', '%'] ∧
    cleanFilename (cleanFilename ['a', ' ', 'b', '%'] [' ', '%']) [' ', '%'] =
      cleanFilename ['a', ' ', 'b', '%'] [' ', '%'] :=
  cleanFilename_spec ['a', ' ', 'b', '%'] [' ', '%']

/-- Concrete instantiation of C10: header `h1`, comment left at `None`. -/
theorem saveHeaderArrayTextFile_comment_required_witness :
    saveHeaderArrayTextFile (some ['h', '1']) none ['d'] = .error () ∧
    ∀ c : List Char, ∃ out : List Char,
      saveHeaderArrayTextFile (some ['h', '1']) (some c) ['d'] = .ok out :=
  saveHeaderArrayTextFile_comment_required ['h', '1'] ['d']
